import Mathlib

/-!
# Verification of the simple JSON parser (`src/main.rs`)

A shallow embedding of the hand-written tokenizer (`Lexer::lex`) and the
recursive-descent parser (`parse_value`, `parse_array`, `parse_dict`,
`parse_dict_entry`, `parse`) of the repository, together with theorems
settling the frozen claims about the program.

Modelling conventions:
* A byte buffer is a `List Nat` (each element a byte value).
* `eyre::Result` is modelled by `Res`: `ok` for `Ok`, `error` for values
  built by `eyre::bail!` or propagated with `?`, and `panic` for the
  diverging outcomes a Rust panic produces (the `todo!("parse gen")`
  stub in `parse_value` and out-of-bounds slicing).
* Recursion is driven by an explicit fuel argument so that every
  definition is structurally recursive and kernel-computable; the entry
  points supply a fuel bound that is never exhausted on the executions
  the theorems are about (`lex` advances its cursor on every step, so
  `buffer length + 1` steps suffice).
* `f64` values. The Rust code decodes numeric literals at lex time with
  `str::parse::<f64>()`.  `parseF64Q` models the acceptance grammar of
  Rust's `f64::from_str` (mantissa digits around an optional dot, then
  an optional exponent) and represents the decoded value exactly as a
  rational, eliding the rounding to nearest double; no claim in this
  development depends on rounding.  The `inf`/`nan` spellings are
  omitted: the lexer only ever passes runs that start with `-` or a
  digit and continue with bytes from `0-9 . e`, so those spellings
  cannot reach the decoder.
* `String::from_utf8` is modelled by the standard UTF-8 validity check
  `utf8ValidList` (the byte-level validation performed by Rust's
  standard library); a successfully materialized string is kept as its
  byte list.
* `HashMap<String, JSONValue>` is modelled by an association list
  together with `dictInsert`, which overwrites the value of an existing
  key exactly as `HashMap::insert` does.
-/

namespace SimpleJson

/-- The token type of the lexer (Rust `enum Token`).  `StringVal i j` is a
half-open byte range into the input buffer; `NumVal` carries the decoded
numeric value. -/
inductive Token
  | LeftBrace
  | RightBrace
  | LeftBracket
  | RightBracket
  | Comma
  | Colon
  | NullVal
  | StringVal (i j : Nat)
  | NumVal (q : ℚ)
  | BoolVal (b : Bool)
  deriving DecidableEq, Repr

/-- The error values the Rust code produces via `eyre::bail!` or
propagates with `?`.  Each constructor corresponds to one error site;
the doc string of each names the Rust message. -/
inductive PError
  /-- `"Missing end quote for string"` -/
  | missingEndQuote
  /-- `"Incomplete false value"` -/
  | incompleteFalse
  /-- `"Unexpected value: '<c>'"` (the lexer's final bail, with the
  offending byte) -/
  | unexpectedByte (c : Nat)
  /-- a propagated `f64` parse error (`.parse()?` in the number branch) -/
  | numDecodeErr
  /-- a propagated UTF-8 error (`std::str::from_utf8(..)?` /
  `String::from_utf8(..)?`) -/
  | utf8Err
  /-- `"Expected value"` (`ok_or_eyre` on a missing token) -/
  | expectedValue
  /-- `"Object entry incomplete"` -/
  | entryIncomplete
  /-- `"Expected string for key"` -/
  | expectedStringKey
  /-- `"Expected colon"` -/
  | expectedColon
  /-- `"Unexpected value for array"` -/
  | unexpectedArrayTok
  /-- `"Unexpected value for dict"` -/
  | unexpectedDictTok
  /-- `"Invalid JSON contains extra content"` -/
  | trailingContent
  deriving DecidableEq, Repr

/-- The ways the Rust program can diverge by panicking rather than
returning an `Err`. `todoParseGen` is the `todo!("parse gen")` stub in
`parse_value`; `sliceOutOfBounds` is an out-of-range `buf[i..j]`;
`fuelOut` is an artifact of the fuel-based embedding and is unreachable
for the fuel bounds the entry points supply. -/
inductive PanicKind
  | todoParseGen
  | sliceOutOfBounds
  | fuelOut
  deriving DecidableEq, Repr

/-- Outcome of a fallible computation: Rust `Ok`, Rust `Err`, or a Rust
panic. -/
inductive Res (α : Type)
  | ok (a : α)
  | error (e : PError)
  | panic (k : PanicKind)
  deriving Repr

/-- The parse result tree (Rust `enum JSONValue`).  `Str` holds the
UTF-8-validated bytes of the materialized string; `Dict` holds the
association list modelling the `HashMap`. -/
inductive JSONValue
  | Null
  | Bool (b : Bool)
  | Str (s : List Nat)
  | Num (q : ℚ)
  | Array (xs : List JSONValue)
  | Dict (m : List (List Nat × JSONValue))

/-- The whitespace byte set of `Lexer::new`: space, tab, CR, LF. -/
def whitespaceChars : List Nat := [32, 9, 13, 10]

/-- The single-character symbol mapping of `Lexer::new`:
`{ } [ ] , :`. -/
def singleCharSym (c : Nat) : Option Token :=
  if c = 123 then some Token.LeftBrace
  else if c = 125 then some Token.RightBrace
  else if c = 91 then some Token.LeftBracket
  else if c = 93 then some Token.RightBracket
  else if c = 44 then some Token.Comma
  else if c = 58 then some Token.Colon
  else none

/-- Bytes of `"null"`. -/
def nullBytes : List Nat := [110, 117, 108, 108]

/-- Bytes of `"true"`. -/
def trueBytes : List Nat := [116, 114, 117, 101]

/-- Bytes of `"fals"` (the deliberately 4-byte prefix of `false`). -/
def falsBytes : List Nat := [102, 97, 108, 115]

/-- The multi-character literal mapping of `Lexer::new`, applied to the
(at most 4-byte) slice at the cursor; the patterns are compared in the
source's order. -/
def multiCharSym (s : List Nat) : Option Token :=
  if s = nullBytes then some Token.NullVal
  else if s = trueBytes then some (Token.BoolVal true)
  else if s = falsBytes then some (Token.BoolVal false)
  else none

/-- The numeric character set of `Lexer::new`: `"0123456789.e"`. -/
def numChars : List Nat := [48, 49, 50, 51, 52, 53, 54, 55, 56, 57, 46, 101]

/-- A UTF-8 continuation byte (`0x80..=0xBF`). -/
def contByte (b : Nat) : Bool := 128 ≤ b && b ≤ 191

/-- UTF-8 validity of a byte list: the byte-level validation performed by
Rust's `String::from_utf8` / `str::from_utf8` (RFC 3629: no overlong
encodings, no surrogates, at most U+10FFFF). -/
def utf8ValidList : List Nat → Bool
  | [] => true
  | b :: rest =>
    if b ≤ 127 then utf8ValidList rest
    else if b < 194 then false
    else if b ≤ 223 then
      match rest with
      | b1 :: rest2 => contByte b1 && utf8ValidList rest2
      | [] => false
    else if b ≤ 239 then
      match rest with
      | b1 :: b2 :: rest2 =>
        (if b = 224 then 160 ≤ b1 && b1 ≤ 191
         else if b = 237 then 128 ≤ b1 && b1 ≤ 159
         else contByte b1) && contByte b2 && utf8ValidList rest2
      | _ => false
    else if b ≤ 244 then
      match rest with
      | b1 :: b2 :: b3 :: rest2 =>
        (if b = 240 then 144 ≤ b1 && b1 ≤ 191
         else if b = 244 then 128 ≤ b1 && b1 ≤ 143
         else contByte b1) && contByte b2 && contByte b3 && utf8ValidList rest2
      | _ => false
    else false

/-- An ASCII digit byte. -/
def isDigit (b : Nat) : Bool := 48 ≤ b && b ≤ 57

/-- Split a byte list into its leading run of ASCII digits and the
remainder. -/
def takeDigits : List Nat → List Nat × List Nat
  | [] => ([], [])
  | b :: rest =>
    if isDigit b then
      let p := takeDigits rest
      (b :: p.1, p.2)
    else ([], b :: rest)

/-- The natural number denoted by a list of ASCII digit bytes. -/
def digitsVal (ds : List Nat) : Nat :=
  ds.foldl (fun acc d => acc * 10 + (d - 48)) 0

/-- The exponent part of Rust's `f64::from_str` grammar: an optional
sign then at least one digit, consuming the rest of the input. -/
def expPart (mant : ℚ) (r : List Nat) : Option ℚ :=
  let se : ℤ × List Nat :=
    match r with
    | 43 :: r2 => (1, r2)
    | 45 :: r2 => (-1, r2)
    | r2 => (1, r2)
  let p := takeDigits se.2
  if p.1.isEmpty ∨ ¬ p.2.isEmpty then none
  else some (mant * (10 : ℚ) ^ (se.1 * (digitsVal p.1 : ℤ)))

/-- Acceptance grammar and exact value of Rust's `f64::from_str` on the
byte runs the lexer can produce (see the module doc for what is elided):
an optional sign, digits with an optional dot (at least one digit in the
mantissa), and an optional `e`/`E` exponent. -/
def parseF64Q (bs : List Nat) : Option ℚ :=
  let sp : ℚ × List Nat :=
    match bs with
    | 43 :: r => (1, r)
    | 45 :: r => (-1, r)
    | r => (1, r)
  let p1 := takeDigits sp.2
  let p2 : List Nat × List Nat :=
    match p1.2 with
    | 46 :: r => takeDigits r
    | r => ([], r)
  if p1.1.isEmpty ∧ p2.1.isEmpty then none
  else
    let mant : ℚ :=
      sp.1 * ((digitsVal p1.1 : ℚ) + (digitsVal p2.1 : ℚ) / (10 : ℚ) ^ p2.1.length)
    match p2.2 with
    | [] => some mant
    | 101 :: r => expPart mant r
    | 69 :: r => expPart mant r
    | _ => none

/-- The inner scan of the lexer's string branch: the absolute index of
the first quote byte in the given remainder, whose head sits at absolute
index `j`. -/
def findQuote : List Nat → Nat → Option Nat
  | [], _ => none
  | c :: rest, j => if c = 34 then some j else findQuote rest (j + 1)

/-- The inner scan of the lexer's number branch: the absolute index of
the first byte outside the numeric character set, `none` when the run
reaches the end of the buffer (in which case the source falls through to
its final `bail!`). -/
def scanNumEnd : List Nat → Nat → Option Nat
  | [], _ => none
  | c :: rest, j => if numChars.contains c then scanNumEnd rest (j + 1) else some j

/-- The byte of `l` at index `k`, if in bounds. -/
def byteAt (l : List Nat) (k : Nat) : Option Nat := (l.drop k).head?

/-- The loop body of `Lexer::lex`.  `rem` is the not-yet-consumed suffix
of the buffer, `pos` its absolute start index, `toks` the tokens emitted
so far.  Each iteration consumes one unit of fuel and advances the
cursor by at least one byte, so any fuel exceeding `rem.length` is
enough. -/
def lexLoop : Nat → List Nat → Nat → List Token → Res (List Token)
  | 0, _, _, _ => .panic PanicKind.fuelOut
  | _ + 1, [], _, toks => .ok toks
  | fuel + 1, c :: rest, pos, toks =>
    if whitespaceChars.contains c then
      lexLoop fuel rest (pos + 1) toks
    else
      match singleCharSym c with
      | some t => lexLoop fuel rest (pos + 1) (toks ++ [t])
      | none =>
        if c = 34 then
          match findQuote rest (pos + 1) with
          | some j =>
            lexLoop fuel (rest.drop (j - pos)) (j + 1)
              (toks ++ [Token.StringVal (pos + 1) j])
          | none => .error PError.missingEndQuote
        else
          match multiCharSym ((c :: rest).take 4) with
          | some t =>
            if t = Token.BoolVal false then
              match rest.drop 3 with
              | b :: _ =>
                if b = 101 then
                  lexLoop fuel (rest.drop 4) (pos + 5) (toks ++ [t])
                else .error PError.incompleteFalse
              | [] => .error PError.incompleteFalse
            else
              lexLoop fuel (rest.drop 3) (pos + 4) (toks ++ [t])
          | none =>
            if c = 45 ∨ (48 ≤ c ∧ c ≤ 57) then
              match scanNumEnd rest (pos + 1) with
              | some j =>
                if utf8ValidList ((c :: rest).take (j - pos)) then
                  match parseF64Q ((c :: rest).take (j - pos)) with
                  | some q =>
                    lexLoop fuel (rest.drop (j - pos - 1)) j
                      (toks ++ [Token.NumVal q])
                  | none => .error PError.numDecodeErr
                else .error PError.utf8Err
              | none => .error (PError.unexpectedByte c)
            else .error (PError.unexpectedByte c)

/-- `Lexer::lex`: run the loop over the whole buffer.  The fuel
`buf.length + 1` is one unit per byte plus the final end-of-buffer
check, which is exactly enough because every iteration advances the
cursor. -/
def lex (buf : List Nat) : Res (List Token) :=
  lexLoop (buf.length + 1) buf 0 []

/-- `HashMap::insert`: overwrite the value of an existing key, keeping
the key's position; otherwise add the entry. -/
def dictInsert (k : List Nat) (v : JSONValue) :
    List (List Nat × JSONValue) → List (List Nat × JSONValue)
  | [] => [(k, v)]
  | (k', v') :: rest =>
    if k' = k then (k', v) :: rest else (k', v') :: dictInsert k v rest

/-- `HashMap` lookup on the association-list model, used to state what a
key maps to. -/
def dictLookup (k : List Nat) : List (List Nat × JSONValue) → Option JSONValue
  | [] => none
  | (k', v) :: rest => if k' = k then some v else dictLookup k rest

/-- Rust slicing `buf[i..j]`: the byte range when it is in bounds,
`none` (a panic at the use sites) otherwise. -/
def sliceRange (buf : List Nat) (i j : Nat) : Option (List Nat) :=
  if i ≤ j ∧ j ≤ buf.length then some ((buf.drop i).take (j - i)) else none

/-- `parse_dict_entry`: at least three tokens, a string key (materialized
through UTF-8 validation), a colon, then one value parsed by the given
continuation `pv` (which is `parse_value` at the enclosing fuel). -/
def parse_dict_entry (pv : List Token → List Nat → Res (JSONValue × List Token))
    (tokens : List Token) (buf : List Nat) :
    Res ((List Nat × JSONValue) × List Token) :=
  if tokens.length < 3 then .error PError.entryIncomplete
  else
    match tokens with
    | Token.StringVal i j :: rest =>
      match sliceRange buf i j with
      | none => .panic PanicKind.sliceOutOfBounds
      | some kb =>
        if utf8ValidList kb then
          match rest with
          | Token.Colon :: rest2 =>
            match pv rest2 buf with
            | .ok (v, rest3) => .ok ((kb, v), rest3)
            | .error e => .error e
            | .panic k => .panic k
          | _ => .error PError.expectedColon
        else .error PError.utf8Err
    | _ => .error PError.expectedStringKey

/-- The non-empty loop of `parse_dict`: parse an entry, insert it
(overwriting duplicates), then a closing brace terminates, a comma
continues, anything else is a syntax error. -/
def parse_dict_loop (pv : List Token → List Nat → Res (JSONValue × List Token)) :
    Nat → List (List Nat × JSONValue) → List Token → List Nat →
      Res (JSONValue × List Token)
  | 0, _, _, _ => .panic PanicKind.fuelOut
  | fuel + 1, entries, tokens, buf =>
    match parse_dict_entry pv tokens buf with
    | .ok (kv, rest) =>
      let entries2 := dictInsert kv.1 kv.2 entries
      match rest with
      | [] => .error PError.expectedValue
      | Token.RightBrace :: rest2 => .ok (JSONValue.Dict entries2, rest2)
      | Token.Comma :: rest2 => parse_dict_loop pv fuel entries2 rest2 buf
      | _ :: _ => .error PError.unexpectedDictTok
    | .error e => .error e
    | .panic k => .panic k

/-- `parse_dict`: the object production after the `{` was consumed.
Note the source's empty-object check compares the first token with
`Token::RightBracket` (the array's closing token), not `RightBrace`. -/
def parse_dict (pv : List Token → List Nat → Res (JSONValue × List Token))
    (fuel : Nat) (tokens : List Token) (buf : List Nat) :
    Res (JSONValue × List Token) :=
  match tokens with
  | [] => .error PError.expectedValue
  | t :: rest =>
    if t = Token.RightBracket then .ok (JSONValue.Dict [], rest)
    else parse_dict_loop pv fuel [] tokens buf

/-- The non-empty loop of `parse_array`: parse a value, then a closing
bracket terminates, a comma continues, anything else is a syntax
error. -/
def parse_array_loop (pv : List Token → List Nat → Res (JSONValue × List Token)) :
    Nat → List JSONValue → List Token → List Nat → Res (JSONValue × List Token)
  | 0, _, _, _ => .panic PanicKind.fuelOut
  | fuel + 1, entries, tokens, buf =>
    match pv tokens buf with
    | .ok (v, rest) =>
      match rest with
      | [] => .error PError.expectedValue
      | Token.RightBracket :: rest2 =>
        .ok (JSONValue.Array (entries ++ [v]), rest2)
      | Token.Comma :: rest2 => parse_array_loop pv fuel (entries ++ [v]) rest2 buf
      | _ :: _ => .error PError.unexpectedArrayTok
    | .error e => .error e
    | .panic k => .panic k

/-- `parse_array`: the array production after the `[` was consumed. -/
def parse_array (pv : List Token → List Nat → Res (JSONValue × List Token))
    (fuel : Nat) (tokens : List Token) (buf : List Nat) :
    Res (JSONValue × List Token) :=
  match tokens with
  | [] => .error PError.expectedValue
  | t :: rest =>
    if t = Token.RightBracket then .ok (JSONValue.Array [], rest)
    else parse_array_loop pv fuel [] tokens buf

/-- `parse_value`: dispatch on the leading token.  Literal tokens map to
leaf values (`StringVal` materializes the byte range through UTF-8
validation); `{` and `[` dispatch to the object and array productions;
every other token reaches the source's `todo!("parse gen")` stub, which
panics. -/
def parse_value : Nat → List Token → List Nat → Res (JSONValue × List Token)
  | 0, _, _ => .panic PanicKind.fuelOut
  | fuel + 1, tokens, buf =>
    match tokens with
    | [] => .error PError.expectedValue
    | t :: rest =>
      match t with
      | Token.BoolVal b => .ok (JSONValue.Bool b, rest)
      | Token.NullVal => .ok (JSONValue.Null, rest)
      | Token.NumVal n => .ok (JSONValue.Num n, rest)
      | Token.StringVal i j =>
        match sliceRange buf i j with
        | none => .panic PanicKind.sliceOutOfBounds
        | some bs =>
          if utf8ValidList bs then .ok (JSONValue.Str bs, rest)
          else .error PError.utf8Err
      | Token.LeftBrace => parse_dict (parse_value fuel) fuel rest buf
      | Token.LeftBracket => parse_array (parse_value fuel) fuel rest buf
      | _ => .panic PanicKind.todoParseGen

/-- `parse`: lex the buffer, parse one root value, and reject leftover
tokens.  The parser fuel `tokens.length + 1` is enough because every
production and loop iteration consumes at least one token before
spending a unit of fuel. -/
def parse (json : List Nat) : Res JSONValue :=
  match lex json with
  | .ok tokens =>
    match parse_value (tokens.length + 1) tokens json with
    | .ok (v, rest) =>
      if rest.length > 0 then .error PError.trailingContent else .ok v
    | .error e => .error e
    | .panic k => .panic k
  | .error e => .error e
  | .panic k => .panic k

/-- The range invariant of a `String(start, end)` token relative to the
input buffer: positive start, ordered in-bounds range, delimiting quote
bytes at `start - 1` and at `end`, and no quote byte strictly inside
the range. -/
def stringTokenOk (buf : List Nat) (s e : Nat) : Prop :=
  0 < s ∧ s ≤ e ∧ e ≤ buf.length ∧
  byteAt buf (s - 1) = some 34 ∧ byteAt buf e = some 34 ∧
  ∀ k, s ≤ k → k < e → byteAt buf k ≠ some 34

/-! ## Helper lemmas -/

theorem byteAt_cons_zero (c : Nat) (l : List Nat) : byteAt (c :: l) 0 = some c := rfl

theorem byteAt_cons_succ (c : Nat) (l : List Nat) (m : Nat) :
    byteAt (c :: l) (m + 1) = byteAt l m := rfl

theorem byteAt_some_lt {l : List Nat} {k x : Nat} (h : byteAt l k = some x) :
    k < l.length := by
  by_contra hk
  push_neg at hk
  rw [byteAt, List.drop_eq_nil_of_le hk] at h
  simp at h

theorem drop_add_of_drop {buf rem : List Nat} {pos : Nat} (h : buf.drop pos = rem)
    (d : Nat) : buf.drop (pos + d) = rem.drop d := by
  subst h
  rw [List.drop_drop, Nat.add_comm]

theorem byteAt_of_drop {buf rem : List Nat} {p : Nat} (h : buf.drop p = rem) {x : Nat}
    (hx : p ≤ x) : byteAt buf x = byteAt rem (x - p) := by
  have h2 := drop_add_of_drop h (x - p)
  rw [show p + (x - p) = x from by omega] at h2
  rw [byteAt, byteAt, h2]

theorem lexLoop_nil (fuel pos : Nat) (toks : List Token) (h : 0 < fuel) :
    lexLoop fuel [] pos toks = Res.ok toks := by
  cases fuel with
  | zero => omega
  | succ fuel => rfl

theorem findQuote_none (rem : List Nat) (s : Nat) (h : 34 ∉ rem) :
    findQuote rem s = none := by
  induction rem generalizing s with
  | nil => rfl
  | cons c rest ih =>
    simp only [List.mem_cons, not_or] at h
    have hc : ¬ c = 34 := fun e => h.1 e.symm
    simp [findQuote, hc, ih (s + 1) h.2]

theorem findQuote_some (rem : List Nat) (s j : Nat) (h : findQuote rem s = some j) :
    s ≤ j ∧ byteAt rem (j - s) = some 34 ∧
      ∀ m, m < j - s → byteAt rem m ≠ some 34 := by
  induction rem generalizing s with
  | nil => simp [findQuote] at h
  | cons c rest ih =>
    by_cases hc : c = 34
    · subst hc
      rw [findQuote, if_pos rfl] at h
      obtain rfl := Option.some.inj h
      refine ⟨le_rfl, ?_, ?_⟩
      · rw [Nat.sub_self, byteAt_cons_zero]
      · intro m hm
        omega
    · simp only [findQuote, if_neg hc] at h
      obtain ⟨h1, h2, h3⟩ := ih (s + 1) h
      refine ⟨by omega, ?_, ?_⟩
      · rw [show j - s = (j - (s + 1)) + 1 from by omega, byteAt_cons_succ]
        exact h2
      · intro m hm
        cases m with
        | zero =>
          rw [byteAt_cons_zero]
          intro he
          exact hc (Option.some.inj he)
        | succ m =>
          rw [byteAt_cons_succ]
          exact h3 m (by omega)

theorem findQuote_append (s : List Nat) (t : Nat) (h : 34 ∉ s) :
    findQuote (s ++ [34]) t = some (t + s.length) := by
  induction s generalizing t with
  | nil => simp [findQuote]
  | cons c cs ih =>
    simp only [List.mem_cons, not_or] at h
    have hc : ¬ c = 34 := fun e => h.1 e.symm
    have hlen : t + (c :: cs).length = (t + 1) + cs.length := by
      simp only [List.length_cons]
      omega
    rw [hlen, List.cons_append, findQuote, if_neg hc]
    exact ih (t + 1) h.2

theorem scanNumEnd_some_ge (rem : List Nat) (s j : Nat)
    (h : scanNumEnd rem s = some j) : s ≤ j := by
  induction rem generalizing s with
  | nil => simp [scanNumEnd] at h
  | cons c rest ih =>
    rw [scanNumEnd] at h
    by_cases hc : numChars.contains c
    · rw [if_pos hc] at h
      have := ih (s + 1) h
      omega
    · rw [if_neg hc] at h
      have := Option.some.inj h
      omega

theorem singleCharSym_not_string {c : Nat} {t : Token} (h : singleCharSym c = some t) :
    ∀ a b, t ≠ Token.StringVal a b := by
  intro a b hcontra
  subst hcontra
  unfold singleCharSym at h
  split_ifs at h <;> simp_all

theorem multiCharSym_not_string {s : List Nat} {t : Token} (h : multiCharSym s = some t) :
    ∀ a b, t ≠ Token.StringVal a b := by
  intro a b hcontra
  subst hcontra
  unfold multiCharSym at h
  split_ifs at h <;> simp_all

theorem lexLoop_ws (fuel : Nat) :
    ∀ rem pos toks, rem.length < fuel →
      (∀ b ∈ rem, whitespaceChars.contains b) →
      lexLoop fuel rem pos toks = Res.ok toks := by
  induction fuel with
  | zero =>
    intro rem pos toks h
    omega
  | succ fuel ih =>
    intro rem pos toks hlen hws
    cases rem with
    | nil => rfl
    | cons c rest =>
      have hc := hws c (by simp)
      rw [lexLoop, if_pos hc]
      exact ih rest (pos + 1) toks (by simp at hlen ⊢; omega)
        (fun b hb => hws b (by simp [hb]))

theorem dictLookup_dictInsert (k : List Nat) (v : JSONValue) :
    ∀ m, dictLookup k (dictInsert k v m) = some v := by
  intro m
  induction m with
  | nil => simp [dictInsert, dictLookup]
  | cons kv rest ih =>
    obtain ⟨k', v'⟩ := kv
    by_cases h : k' = k
    · simp [dictInsert, dictLookup, h]
    · simp [dictInsert, dictLookup, h, ih]

/-! ## Claim theorems -/

/-- C1: the claim states that `{}` parses to an empty object.  The code
instead compares the first token of the object production with the
array's closing token `]`, so `parse` of `{}` fails with the
"Object entry incomplete" error, while the ill-formed input `{]`
parses to an empty object.  This theorem evaluates the program at both
inputs, exhibiting the divergence from the claim. -/
theorem empty_object_rejected :
    parse [123, 125] = Res.error PError.entryIncomplete ∧
    parse [123, 93] = Res.ok (JSONValue.Dict []) :=
  ⟨rfl, rfl⟩

/-- C2: the claim states that a numeric literal running to the end of
the buffer is sliced and emitted as a `Number` token, e.g. that lexing
`1` yields `Number(1.0)`.  The code's number scan only emits a token
when a disqualifying byte is found before the buffer ends; when the run
reaches the end of the buffer the loop falls through to the final
`bail!`, so lexing (and hence parsing) the buffer `1` fails with the
"Unexpected value: '1'" error.  This theorem evaluates the program at
that input. -/
theorem number_at_eof_rejected :
    lex [49] = Res.error (PError.unexpectedByte 49) ∧
    parse [49] = Res.error (PError.unexpectedByte 49) :=
  ⟨rfl, rfl⟩

/-- C3: the claim states that `parse_value` returns an error value (not
a panic) on every token sequence whose head is none of the value-start
tokens.  For the empty sequence the code indeed returns the
"Expected value" error, but for a leading `}`, `]`, `,` or `:` it
reaches the `todo!("parse gen")` stub, which panics.  This theorem
evaluates the program on all four such inputs. -/
theorem unexpected_leading_token_panics :
    parse_value 1 [] [] = Res.error PError.expectedValue ∧
    parse [125] = Res.panic PanicKind.todoParseGen ∧
    parse [93] = Res.panic PanicKind.todoParseGen ∧
    parse [44] = Res.panic PanicKind.todoParseGen ∧
    parse [58] = Res.panic PanicKind.todoParseGen :=
  ⟨rfl, rfl, rfl, rfl, rfl⟩

/-- C4: the claim's general part — tokens left over after the root
value force the trailing-content error — holds of `parse`, but its
concrete example is wrong on this code: `parse(b"1 2")` never reaches
the parser, because the trailing `2` at the end of the buffer trips the
lexer's number-at-end-of-buffer defect (see C2), so the call fails with
"Unexpected value: '2'" instead of the trailing-content error. -/
theorem trailing_content_behavior :
    parse [49, 32, 50] = Res.error (PError.unexpectedByte 50) ∧
    ∀ (buf : List Nat) (toks : List Token) (v : JSONValue) (rest : List Token),
      lex buf = Res.ok toks →
      parse_value (toks.length + 1) toks buf = Res.ok (v, rest) →
      rest ≠ [] →
      parse buf = Res.error PError.trailingContent := by
  refine ⟨rfl, ?_⟩
  intro buf toks v rest h1 h2 h3
  simp only [parse, h1, h2]
  rw [if_pos (List.length_pos.mpr h3)]

/-- Witness for C4: the input `true null` lexes to two tokens, the root
value consumes only the first, and `parse` reports trailing content. -/
theorem trailing_content_behavior_witness :
    parse [116, 114, 117, 101, 32, 110, 117, 108, 108] =
      Res.error PError.trailingContent :=
  trailing_content_behavior.2 [116, 114, 117, 101, 32, 110, 117, 108, 108]
    [Token.BoolVal true, Token.NullVal] (JSONValue.Bool true) [Token.NullVal]
    rfl rfl (by decide)

/-- C7: whenever the lexer's main loop reaches an opening quote with no
quote byte anywhere in the rest of the buffer, lexing fails with the
"Missing end quote for string" error; hence `parse` of `"abc` fails the
same way. -/
theorem unterminated_string_error :
    (∀ (fuel pos : Nat) (toks : List Token) (rest : List Nat), 34 ∉ rest →
      lexLoop (fuel + 1) (34 :: rest) pos toks = Res.error PError.missingEndQuote) ∧
    parse [34, 97, 98, 99] = Res.error PError.missingEndQuote := by
  refine ⟨?_, rfl⟩
  intro fuel pos toks rest h
  have hq := findQuote_none rest (pos + 1) h
  rw [lexLoop]
  simp [singleCharSym, hq, whitespaceChars]

/-- Witness for C7: a buffer holding a quote followed by one non-quote
byte makes the loop fail with the unterminated-string error. -/
theorem unterminated_string_error_witness :
    lexLoop 1 [34, 97] 0 [] = Res.error PError.missingEndQuote :=
  unterminated_string_error.1 0 0 [] [97] (by decide)

/-- C8: when the tokenizer matches the 4-byte prefix `fals` at the
cursor, it requires the very next byte to equal `e`: with the buffer
exhausted or any other byte there, lexing fails with the
"Incomplete false value" error; with an `e` it emits `Bool(false)` and
continues right after the `e` (at cursor position `pos + 5`). -/
theorem fals_requires_e (fuel pos : Nat) (toks : List Token) (b : Nat) (rest : List Nat) :
    lexLoop (fuel + 1) [102, 97, 108, 115] pos toks = Res.error PError.incompleteFalse ∧
    (b ≠ 101 →
      lexLoop (fuel + 1) (102 :: 97 :: 108 :: 115 :: b :: rest) pos toks =
        Res.error PError.incompleteFalse) ∧
    lexLoop (fuel + 1) (102 :: 97 :: 108 :: 115 :: 101 :: rest) pos toks =
      lexLoop fuel rest (pos + 5) (toks ++ [Token.BoolVal false]) := by
  refine ⟨rfl, ?_, rfl⟩
  intro hb
  rw [lexLoop]
  simp [singleCharSym, multiCharSym, whitespaceChars, nullBytes, trueBytes, falsBytes, hb]

/-- Witness for C8: the three behaviours at concrete inputs — `fals`
alone fails, `fals` followed by `x` fails, `false` lexes to the single
token `Bool(false)`. -/
theorem fals_requires_e_witness :
    lex [102, 97, 108, 115] = Res.error PError.incompleteFalse ∧
    lex [102, 97, 108, 115, 120] = Res.error PError.incompleteFalse ∧
    lex [102, 97, 108, 115, 101] = Res.ok [Token.BoolVal false] :=
  ⟨(fals_requires_e 4 0 [] 120 []).1,
   (fals_requires_e 5 0 [] 120 []).2.1 (by decide),
   ((fals_requires_e 5 0 [] 120 []).2.2).trans rfl⟩

/-- A one-step evaluation rule for `parse_value` on a leading string
token. -/
theorem parse_value_string_step (fuel : Nat) (i j : Nat) (rest : List Token)
    (buf : List Nat) :
    parse_value (fuel + 1) (Token.StringVal i j :: rest) buf =
      (match sliceRange buf i j with
      | none => Res.panic PanicKind.sliceOutOfBounds
      | some bs =>
        if utf8ValidList bs then Res.ok (JSONValue.Str bs, rest)
        else Res.error PError.utf8Err) := rfl

/-- C5 counterexample: the claim quantifies over every byte string
without a quote byte, but string materialization validates UTF-8, so
for `s = [255]` the parse of `"<s>"` is a UTF-8 error, not
`String(s)`. -/
theorem quoted_invalid_utf8_cex :
    parse [34, 255, 34] ≠ Res.ok (JSONValue.Str [255]) := by
  intro h
  rw [show parse [34, 255, 34] = Res.error PError.utf8Err from rfl] at h
  exact Res.noConfusion h

/-- C5 (amended with the UTF-8 hypothesis the code enforces): for every
byte string `s` with no quote byte whose bytes are valid UTF-8, parsing
the concatenation of a quote, `s`, and a quote yields exactly
`String(s)`, the bytes passed through unchanged. -/
theorem quoted_string_roundtrip (s : List Nat) (h34 : 34 ∉ s)
    (hu : utf8ValidList s = true) :
    parse (34 :: (s ++ [34])) = Res.ok (JSONValue.Str s) := by
  have hfq : findQuote (s ++ [34]) 1 = some (1 + s.length) := findQuote_append s 1 h34
  have hdrop : (s ++ [34]).drop (1 + s.length) = [] := by
    apply List.drop_eq_nil_of_le
    simp only [List.length_append, List.length_cons, List.length_nil]
    omega
  have hlex : lex (34 :: (s ++ [34])) = Res.ok [Token.StringVal 1 (1 + s.length)] := by
    unfold lex
    rw [show (34 :: (s ++ [34])).length + 1 = (s.length + 2) + 1 from by
      simp only [List.length_cons, List.length_append, List.length_nil]]
    rw [lexLoop]
    simp only [show (whitespaceChars.contains 34) = false from rfl, Bool.false_eq_true,
      if_false, show singleCharSym 34 = none from rfl, if_pos rfl, Nat.zero_add,
      Nat.sub_zero, hfq, hdrop]
    rw [lexLoop_nil _ _ _ (by omega)]
    simp
  have hcond : 1 ≤ 1 + s.length ∧ 1 + s.length ≤ (34 :: (s ++ [34])).length := by
    refine ⟨by omega, ?_⟩
    simp only [List.length_cons, List.length_append, List.length_nil]
    omega
  have hslice : sliceRange (34 :: (s ++ [34])) 1 (1 + s.length) = some s := by
    rw [sliceRange, if_pos hcond]
    rw [show (34 :: (s ++ [34])).drop 1 = s ++ [34] from rfl]
    rw [show 1 + s.length - 1 = s.length from by omega]
    rw [List.take_left]
  simp only [parse, hlex, List.length_cons, List.length_nil, Nat.zero_add]
  rw [parse_value_string_step, hslice]
  simp only [hu, if_pos rfl]
  rfl

/-- Witness for C5: the body `abc` (no quote byte, valid UTF-8) round
trips through `parse`. -/
theorem quoted_string_roundtrip_witness :
    parse [34, 97, 98, 99, 34] = Res.ok (JSONValue.Str [97, 98, 99]) :=
  quoted_string_roundtrip [97, 98, 99] (by decide) (by decide)

/-- C9: parsing `{"a":1,"a":2}` succeeds and the key `a` maps to the
number 2 — the later duplicate entry overwrote the earlier one via the
map insertion — and, in general, inserting a key that is already
present overwrites its value, so the last occurrence wins. -/
theorem duplicate_keys_last_wins :
    parse [123, 34, 97, 34, 58, 49, 44, 34, 97, 34, 58, 50, 125] =
      Res.ok (JSONValue.Dict [([97], JSONValue.Num 2)]) ∧
    ∀ (k : List Nat) (v : JSONValue) (m : List (List Nat × JSONValue)),
      dictLookup k (dictInsert k v m) = some v := by
  constructor
  · have hq1 : parseF64Q [49] = some 1 := by
      norm_num [parseF64Q, takeDigits, digitsVal, isDigit]
    have hq2 : parseF64Q [50] = some 2 := by
      norm_num [parseF64Q, takeDigits, digitsVal, isDigit]
    have hlex : lex [123, 34, 97, 34, 58, 49, 44, 34, 97, 34, 58, 50, 125] =
        Res.ok [Token.LeftBrace, Token.StringVal 2 3, Token.Colon, Token.NumVal 1,
          Token.Comma, Token.StringVal 8 9, Token.Colon, Token.NumVal 2,
          Token.RightBrace] := by
      simp [lex, lexLoop, findQuote, scanNumEnd, singleCharSym, multiCharSym,
        whitespaceChars, numChars, nullBytes, trueBytes, falsBytes, hq1, hq2]
      rw [if_pos (show utf8ValidList [49] = true from rfl),
        if_pos (show utf8ValidList [50] = true from rfl)]
    simp only [parse, hlex]
    rfl
  · exact fun k v m => dictLookup_dictInsert k v m

/-- C10: for the empty buffer and for every buffer of whitespace bytes
only, lexing succeeds with the empty token sequence and `parse` then
fails with the "Expected value" error — an error value, not a panic. -/
theorem whitespace_only_expected_value (buf : List Nat)
    (h : ∀ b ∈ buf, whitespaceChars.contains b) :
    lex buf = Res.ok [] ∧ parse buf = Res.error PError.expectedValue := by
  have hl : lex buf = Res.ok [] :=
    lexLoop_ws (buf.length + 1) buf 0 [] (by omega) h
  refine ⟨hl, ?_⟩
  simp only [parse, hl]
  rfl

/-- Witness for C10: the empty buffer and a buffer of all four
whitespace bytes both fail with the expected-value error. -/
theorem whitespace_only_expected_value_witness :
    parse [] = Res.error PError.expectedValue ∧
    parse [32, 9, 13, 10] = Res.error PError.expectedValue :=
  ⟨(whitespace_only_expected_value [] (by decide)).2,
   (whitespace_only_expected_value [32, 9, 13, 10] (by decide)).2⟩

/-- The main induction behind C6: every `String` token accumulated or
emitted by a run of the lexer loop that ends in success satisfies the
range invariant, provided the remainder really is the buffer suffix at
the cursor. -/
theorem lexLoop_string_inv (buf : List Nat) :
    ∀ (fuel : Nat) (rem : List Nat) (pos : Nat) (toks out : List Token),
      lexLoop fuel rem pos toks = Res.ok out →
      buf.drop pos = rem →
      (∀ s e, Token.StringVal s e ∈ toks → stringTokenOk buf s e) →
      ∀ s e, Token.StringVal s e ∈ out → stringTokenOk buf s e := by
  intro fuel
  induction fuel with
  | zero =>
    intro rem pos toks out h
    simp [lexLoop] at h
  | succ fuel ih =>
    intro rem pos toks out h hdrop htoks
    cases rem with
    | nil =>
      simp only [lexLoop, Res.ok.injEq] at h
      subst h
      exact htoks
    | cons c rest =>
      rw [lexLoop] at h
      split at h
      · -- whitespace: advance one byte
        exact ih rest (pos + 1) toks out h ((drop_add_of_drop hdrop 1).trans rfl) htoks
      · split at h
        · -- a single-character symbol token
          rename_i t hsym
          refine ih rest (pos + 1) (toks ++ [t]) out h
            ((drop_add_of_drop hdrop 1).trans rfl) ?_
          intro s e hm
          rcases List.mem_append.mp hm with hm1 | hm2
          · exact htoks s e hm1
          · exact absurd (List.mem_singleton.mp hm2).symm (singleCharSym_not_string hsym s e)
        · rename_i hsym
          split at h
          · -- the string branch: c is a quote
            rename_i hc
            split at h
            · -- a closing quote was found at index j
              rename_i j hfq
              obtain ⟨hle, hb, hno⟩ := findQuote_some rest (pos + 1) j hfq
              have hrest : buf.drop (pos + 1) = rest :=
                (drop_add_of_drop hdrop 1).trans rfl
              have hbj : byteAt buf j = some 34 := by
                rw [byteAt_of_drop hrest (by omega : pos + 1 ≤ j)]
                exact hb
              have hjlen : j < buf.length := byteAt_some_lt hbj
              have hok : stringTokenOk buf (pos + 1) j := by
                refine ⟨by omega, hle, by omega, ?_, hbj, ?_⟩
                · rw [show pos + 1 - 1 = pos from by omega, byteAt, hdrop]
                  simp [hc]
                · intro k hk1 hk2
                  rw [byteAt_of_drop hrest hk1]
                  exact hno (k - (pos + 1)) (by omega)
              refine ih (rest.drop (j - pos)) (j + 1)
                (toks ++ [Token.StringVal (pos + 1) j]) out h ?_ ?_
              · have h2 := drop_add_of_drop hrest (j - pos)
                rw [show pos + 1 + (j - pos) = j + 1 from by omega] at h2
                exact h2
              · intro s e hm
                rcases List.mem_append.mp hm with hm1 | hm2
                · exact htoks s e hm1
                · have heq := List.mem_singleton.mp hm2
                  injection heq with hs he
                  subst hs
                  subst he
                  exact hok
            · exact absurd h (by simp)
          · rename_i hc
            split at h
            · -- a `null`, `true` or `fals` literal
              rename_i t hmc
              have hnotstr := multiCharSym_not_string hmc
              split at h
              · -- `fals`: require the following `e`
                rename_i ht
                split at h
                · rename_i b tail hd3
                  split at h
                  · rename_i hb101
                    refine ih (rest.drop 4) (pos + 5) (toks ++ [t]) out h
                      ((drop_add_of_drop hdrop 5).trans rfl) ?_
                    intro s e hm
                    rcases List.mem_append.mp hm with hm1 | hm2
                    · exact htoks s e hm1
                    · exact absurd (List.mem_singleton.mp hm2).symm (hnotstr s e)
                  · exact absurd h (by simp)
                · exact absurd h (by simp)
              · -- `null` or `true`: advance four bytes
                rename_i ht
                refine ih (rest.drop 3) (pos + 4) (toks ++ [t]) out h
                  ((drop_add_of_drop hdrop 4).trans rfl) ?_
                intro s e hm
                rcases List.mem_append.mp hm with hm1 | hm2
                · exact htoks s e hm1
                · exact absurd (List.mem_singleton.mp hm2).symm (hnotstr s e)
            · rename_i hmc
              split at h
              · -- the number branch
                rename_i hnum
                split at h
                · rename_i j hscan
                  have hj := scanNumEnd_some_ge rest (pos + 1) j hscan
                  have hrest : buf.drop (pos + 1) = rest :=
                    (drop_add_of_drop hdrop 1).trans rfl
                  split at h
                  · split at h
                    · rename_i q hpf
                      refine ih (rest.drop (j - pos - 1)) j
                        (toks ++ [Token.NumVal q]) out h ?_ ?_
                      · have h2 := drop_add_of_drop hrest (j - pos - 1)
                        rw [show pos + 1 + (j - pos - 1) = j from by omega] at h2
                        exact h2
                      · intro s e hm
                        rcases List.mem_append.mp hm with hm1 | hm2
                        · exact htoks s e hm1
                        · exact absurd (List.mem_singleton.mp hm2) (by simp)
                    · exact absurd h (by simp)
                  · exact absurd h (by simp)
                · exact absurd h (by simp)
              · exact absurd h (by simp)

/-- C6: for every input buffer on which lexing succeeds, every
`String(start, end)` token produced satisfies
`0 < start ≤ end ≤ buffer length`, the bytes at `start - 1` and at
`end` are the delimiting quote bytes, and no byte of the half-open
range `[start, end)` is a quote byte. -/
theorem string_token_range_invariant (buf : List Nat) (toks : List Token)
    (h : lex buf = Res.ok toks) :
    ∀ s e, Token.StringVal s e ∈ toks → stringTokenOk buf s e :=
  lexLoop_string_inv buf (buf.length + 1) buf 0 [] toks h (by simp) (by simp)

/-- Witness for C6, at the buffer `"a"`: its single string token is
`String(1, 2)` and the invariant instantiates to the delimiting quotes
at indices 0 and 2 with no quote at index 1. -/
theorem string_token_range_invariant_witness :
    byteAt [34, 97, 34] 0 = some 34 ∧ byteAt [34, 97, 34] 2 = some 34 ∧
    byteAt [34, 97, 34] 1 ≠ some 34 := by
  have h := string_token_range_invariant [34, 97, 34] [Token.StringVal 1 2]
    rfl 1 2 (by simp)
  exact ⟨h.2.2.2.1, h.2.2.2.2.1, h.2.2.2.2.2 1 le_rfl (by omega)⟩

end SimpleJson
